import Mathlib

/-!
Verification development for the expr library: a scanner, a
precedence-climbing parser, and a tree evaluator for arithmetic and
logical expressions.

Modelling conventions:
* Rust f32 arithmetic is modelled over the rationals. Every concrete
  value appearing in the claims (small integers, halves) is exactly
  representable in f32 and the operations used on them are exact, so
  the two semantics agree on all inputs the claims mention.
* Rust panics and unwrap failures are modelled as the value none of an
  Option result; recoverable diagnostics travel in an Except layer.
* Machine integer fields (u32 byte offsets, u16 span lengths, the u32
  diagnostic position) are modelled as Nat; theorems that quantify over
  unboundedly long inputs carry explicit size hypotheses keeping every
  such counter inside its machine range, so overflow never matters.
* The parser in the source is written against a pull iterator of
  Result items that is adapted with Iterator scan and Peekable.
  Neither adapter is fused, and the model reproduces that faithfully:
  after an error item has been mapped to the end of the stream, a
  later pull can still surface subsequent tokens.
* Recursion in the parser is bounded with explicit fuel; the entry
  point hands it more fuel than the token count of its input, so the
  sentinel out-of-fuel branch is unreachable on every input considered
  in the theorems below (all of which either compute on concrete input
  or quantify over the fuel).
-/

/-- Diagnostic record: message and position, from lib.rs. The u32 field
named at in the source is called at_ here. -/
structure Error where
  error : String
  at_ : Nat
deriving DecidableEq, Repr

/-- Byte span into the source string, from lib.rs (fields at: u32 and
len: u16 in the source). -/
structure Position where
  at_ : Nat
  len : Nat
deriving DecidableEq, Repr

/-- Operator table entry, from operator.rs. The bool field is named
prefix in the source; the spec name validAsPrefix is used because the
source name is not a legal identifier here. -/
structure Operator where
  char1 : Char
  char2 : Option Char
  precedence : Nat
  validAsPrefix : Bool
deriving DecidableEq, Repr

/-- The fixed nine-entry operator table OPERATORS from operator.rs, in
source order. -/
def OPERATORS : List Operator := [
  ⟨'/', none, 60, false⟩,
  ⟨'*', none, 60, false⟩,
  ⟨'+', none, 50, true⟩,
  ⟨'-', none, 50, true⟩,
  ⟨'<', none, 40, false⟩,
  ⟨'>', none, 40, false⟩,
  ⟨'<', some '=', 40, false⟩,
  ⟨'>', some '=', 40, false⟩,
  ⟨'=', none, 30, false⟩]

/-- Iterator position: index of the first list element satisfying the
predicate, as used by iter().position in operator.rs. -/
def findIndex (p : Operator → Bool) : List Operator → Option Nat
  | [] => none
  | op :: rest => if p op then some 0 else (findIndex p rest).map Nat.succ

/-- is_operator from operator.rs: index of the first table entry whose
char1 matches. -/
def is_operator (c : Char) : Option Nat :=
  findIndex (fun op => op.char1 == c) OPERATORS

/-- is_multi_char from operator.rs: index of the first table entry
matching both glyphs. -/
def is_multi_char (c1 c2 : Char) : Option Nat :=
  findIndex (fun op => op.char1 == c1 && op.char2 == some c2) OPERATORS

/-- The operator::from table indexing of operator.rs. Indices are only
ever produced by the lookups, so the out-of-range default (a blank
glyph matching no evaluator or parser arm, hence behaving as the Rust
panic would) is unreachable in the pipeline. -/
def opFrom (ix : Nat) : Operator :=
  OPERATORS.getD ix ⟨' ', none, 0, false⟩

/-- Token type from tokenizer.rs. The Str constructor is named str and
Operator is named operator; span_start fields are at_. -/
inductive Token where
  | number (pos : Position)
  | str (pos : Position)
  | operator (at_ : Nat) (operator_ix : Nat)
  | comma (at_ : Nat)
  | lparen (at_ : Nat)
  | rparen (at_ : Nat)
deriving DecidableEq, Repr

/-- Rust char::is_ascii_whitespace: space, tab, newline, form feed,
carriage return. -/
def isAsciiWhitespace (c : Char) : Bool :=
  c == ' ' || c == '\t' || c == '\n' || c == '\x0C' || c == '\r'

/-- Rust char::is_ascii_digit. -/
def isAsciiDigit (c : Char) : Bool :=
  '0' ≤ c && c ≤ '9'

/-- Rust char::is_ascii_punctuation: the four ASCII punctuation
ranges. -/
def isAsciiPunctuation (c : Char) : Bool :=
  ('!' ≤ c && c ≤ '/') || (':' ≤ c && c ≤ '@') ||
  ('[' ≤ c && c ≤ '\x60') || ('\x7B' ≤ c && c ≤ '~')

/-- Rust char::is_alphanumeric (Unicode). Modelled as the ASCII
alphanumeric test, which agrees with the source on every ASCII
character; every theorem below that depends on how an identifier is
extended restricts its input to ASCII, and the non-ASCII
counterexample below only exercises the first character of an
identifier, which bypasses this predicate. -/
def isAlphanumeric (c : Char) : Bool :=
  c.isAlphanum

/-- Scanner state: remaining characters plus the running byte index
byte_ix, from tokenizer.rs. -/
abbrev ScanState := List Char × Nat

/-- The loop body of Tokens::number from tokenizer.rs: starting from
len accumulated characters, consume a maximal run of ASCII digits and
dots, tracking the byte index. -/
def numberLoop : List Char → Nat → Nat → Nat × ScanState
  | [], bix, len => (len, ([], bix))
  | c :: rest, bix, len =>
    if isAsciiDigit c || c == '.' then numberLoop rest (bix + c.utf8Size) (len + 1)
    else (len, (c :: rest, bix))

/-- The loop body of Tokens::string from tokenizer.rs: consume a
maximal run of alphanumeric characters and underscores. -/
def stringLoop : List Char → Nat → Nat → Nat × ScanState
  | [], bix, len => (len, ([], bix))
  | c :: rest, bix, len =>
    if isAlphanumeric c || c == '_' then stringLoop rest (bix + c.utf8Size) (len + 1)
    else (len, (c :: rest, bix))

/-- Tokens::next from tokenizer.rs: skip ASCII whitespace, then
dispatch on the first significant character, producing one token or
one diagnostic and the successor state. The char_num counter starts at
zero on every call, exactly as the local variable does in the
source. -/
def tokensNext : List Char → Nat → Nat → Option (Except Error Token) × ScanState
  | [], bix, _ => (none, ([], bix))
  | ch :: rest, bix, char_num =>
    let byte_ix := bix
    let bix2 := bix + ch.utf8Size
    let char_num := char_num + 1
    if isAsciiWhitespace ch then
      tokensNext rest bix2 char_num
    else if isAsciiDigit ch || ch == '.' then
      let r := numberLoop rest bix2 1
      if r.1 == 1 && ch == '.' then
        (some (.error ⟨"Unexpected token . at position " ++ toString char_num, char_num⟩), r.2)
      else
        (some (.ok (.number ⟨byte_ix, r.1⟩)), r.2)
    else match is_operator ch with
    | some ix1 =>
      match rest with
      | c2 :: rest2 =>
        match is_multi_char ch c2 with
        | some ix2 => (some (.ok (.operator byte_ix ix2)), (rest2, bix2 + c2.utf8Size))
        | none => (some (.ok (.operator byte_ix ix1)), (rest, bix2))
      | [] => (some (.ok (.operator byte_ix ix1)), ([], bix2))
    | none =>
      if ch == ',' then (some (.ok (.comma byte_ix)), (rest, bix2))
      else if ch == '(' then (some (.ok (.lparen byte_ix)), (rest, bix2))
      else if ch == ')' then (some (.ok (.rparen byte_ix)), (rest, bix2))
      else if isAsciiPunctuation ch && ch != '_' then
        (some (.error ⟨"Found reserved character " ++ toString ch ++ " at " ++ toString char_num,
          char_num⟩), (rest, bix2))
      else
        let r := stringLoop rest bix2 1
        (some (.ok (.str ⟨byte_ix, r.1⟩)), r.2)

/-- Repeatedly pull the scanner, collecting every yielded item (the
Rust iterator is not fused, so items after an error item are still
produced). The fuel bound exceeds the character count, and every call
that yields an item consumes at least one character, so the bound is
never the reason a list ends. -/
def tokenizeFuel : Nat → List Char → Nat → List (Except Error Token)
  | 0, _, _ => []
  | f + 1, chars, bix =>
    match tokensNext chars bix 0 with
    | (none, _) => []
    | (some r, st) => r :: tokenizeFuel f st.1 st.2

/-- The full token sequence of a source string. -/
def tokenize (s : String) : List (Except Error Token) :=
  tokenizeFuel (s.data.length + 1) s.data 0

/-- Expression tree from lib.rs. The constructor named Variable in the
source is var here (the source name is a keyword); boxing is erased. -/
inductive Expr where
  | number (pos : Position)
  | var (pos : Position)
  | func (name : Position) (params : List Expr)
  | unary (e : Expr) (operator_ix : Nat)
  | binary (left right : Expr) (operator_ix : Nat)
deriving Repr

/-- The adapted token stream the parser works on, from parse in
parser.rs: an arbitrary inner iterator state, the captured has_error
slot written by the scan closure, and the Peekable cache. -/
structure Adapted (σ : Type) where
  inner : σ
  has_error : Option Error
  peeked : Option (Option Token)

/-- One pull on the adapted stream: a cached peek is served first;
otherwise the inner iterator is pulled once and the scan closure maps
an error item to the end of the stream while recording it. Neither
adapter is fused, so a pull after a mapped error reaches the items
behind it, exactly as in the source. -/
def scanNext {σ : Type} (step : σ → Option (Except Error Token) × σ) (s : Adapted σ) :
    Option Token × Adapted σ :=
  match s.peeked with
  | some v => (v, { s with peeked := none })
  | none =>
    match step s.inner with
    | (none, i) => (none, { s with inner := i })
    | (some (.ok t), i) => (some t, { s with inner := i })
    | (some (.error e), i) => (none, { inner := i, has_error := some e, peeked := none })

/-- Peekable peek: pull once and cache, or serve the cache. -/
def scanPeek {σ : Type} (step : σ → Option (Except Error Token) × σ) (s : Adapted σ) :
    Option Token × Adapted σ :=
  match s.peeked with
  | some v => (v, s)
  | none =>
    let r := scanNext step s
    (r.1, { r.2 with peeked := some r.1 })

/-- Sentinel produced only when the explicit fuel runs out; the entry
points always supply more fuel than the parser can consume. -/
def outOfFuel : Error := ⟨"OUT OF FUEL", 0⟩

mutual

/-- expr from parser.rs: parse one singular term, then climb. -/
def expr {σ : Type} (step : σ → Option (Except Error Token) × σ) :
    Nat → Adapted σ → Nat → (Except Error Expr) × Adapted σ
  | 0, s, _ => (.error outOfFuel, s)
  | f + 1, s, precedence =>
    let r := singular step f s
    exprLoop step f r.1 precedence r.2

/-- The while loop of expr from parser.rs: while the peeked token is
an operator whose precedence strictly exceeds the current minimum,
consume it, parse the right operand at that precedence, and fold a
binary node; a failed side propagates its diagnostic. -/
def exprLoop {σ : Type} (step : σ → Option (Except Error Token) × σ) :
    Nat → Except Error Expr → Nat → Adapted σ → (Except Error Expr) × Adapted σ
  | 0, _, _, s => (.error outOfFuel, s)
  | f + 1, left, precedence, s =>
    match scanPeek step s with
    | (some (.operator _ operator_ix), s) =>
      if (opFrom operator_ix).precedence > precedence then
        let s := (scanNext step s).2
        let r := expr step f s (opFrom operator_ix).precedence
        match left with
        | .error e => (.error e, r.2)
        | .ok l =>
          match r.1 with
          | .error e => (.error e, r.2)
          | .ok rt => exprLoop step f (.ok (.binary l rt operator_ix)) precedence r.2
      else (left, s)
    | (_, s) => (left, s)

/-- singular from parser.rs: one atomic term. -/
def singular {σ : Type} (step : σ → Option (Except Error Token) × σ) :
    Nat → Adapted σ → (Except Error Expr) × Adapted σ
  | 0, s => (.error outOfFuel, s)
  | f + 1, s =>
    match scanPeek step s with
    | (none, s) => (.error ⟨"Expected expression but reached the end", 0⟩, s)
    | (some t, s) =>
      match t with
      | .operator _ operator_ix =>
        let s := (scanNext step s).2
        let r := expr step f s 0
        match r.1 with
        | .ok e => (.ok (.unary e operator_ix), r.2)
        | .error er => (.error er, r.2)
      | .str name =>
        let s := (scanNext step s).2
        match scanPeek step s with
        | (some (.lparen _), s) =>
          let r := params step f s
          match r.1 with
          | .ok ps => (.ok (.func name ps), r.2)
          | .error er => (.error er, r.2)
        | (_, s) => (.ok (.var name), s)
      | .lparen _ => parentheses step f s
      | .number pos =>
        let s := (scanNext step s).2
        (.ok (.number pos), s)
      | _ => (.error ⟨"Expected operator, variable, function or number but found ", 0⟩, s)

/-- parentheses from parser.rs: consume the opening parenthesis, parse
the inner expression, and require the closing parenthesis. -/
def parentheses {σ : Type} (step : σ → Option (Except Error Token) × σ) :
    Nat → Adapted σ → (Except Error Expr) × Adapted σ
  | 0, s => (.error outOfFuel, s)
  | f + 1, s =>
    let s := (scanNext step s).2
    let r := expr step f s 0
    match r.1 with
    | .error e => (.error e, r.2)
    | .ok e =>
      match scanNext step r.2 with
      | (some (.rparen _), s) => (.ok e, s)
      | (some _, s) => (.error ⟨"Expected closing parenthesis ) but found ", 0⟩, s)
      | (none, s) => (.error ⟨"Missing closing parenthesis )", 0⟩, s)

/-- params from parser.rs: consume the opening parenthesis and collect
comma separated arguments until the closing parenthesis. -/
def params {σ : Type} (step : σ → Option (Except Error Token) × σ) :
    Nat → Adapted σ → (Except Error (List Expr)) × Adapted σ
  | 0, s => (.error outOfFuel, s)
  | f + 1, s =>
    let s := (scanNext step s).2
    paramsLoop step f [] s

/-- The loop of params from parser.rs, carrying the vector built so
far. -/
def paramsLoop {σ : Type} (step : σ → Option (Except Error Token) × σ) :
    Nat → List Expr → Adapted σ → (Except Error (List Expr)) × Adapted σ
  | 0, _, s => (.error outOfFuel, s)
  | f + 1, acc, s =>
    match scanPeek step s with
    | (some (.rparen _), s) =>
      let s := (scanNext step s).2
      (.ok acc, s)
    | (some (.comma _), s) =>
      let s := (scanNext step s).2
      let r := expr step f s 0
      match r.1 with
      | .ok e => paramsLoop step f (acc ++ [e]) r.2
      | .error er => (.error er, r.2)
    | (some _, s) =>
      let r := expr step f s 0
      match r.1 with
      | .ok e => paramsLoop step f (acc ++ [e]) r.2
      | .error er => (.error er, r.2)
    | (none, s) => (.error ⟨"Missing closing parenthesis )", 0⟩, s)

end

/-- The body of parse from parser.rs before its final checks: wrap the
raw stream in the scan and Peekable adapters and run expr at minimum
precedence zero. -/
def parseCore {σ : Type} (step : σ → Option (Except Error Token) × σ) (fuel : Nat)
    (s0 : σ) : (Except Error Expr) × Adapted σ :=
  expr step fuel ⟨s0, none, none⟩ 0

/-- parse from parser.rs: run the climber, then (in this order) fail
on an unconsumed token, fail with a recorded scan error, and otherwise
return the parse result. -/
def parse {σ : Type} (step : σ → Option (Except Error Token) × σ) (fuel : Nat)
    (s0 : σ) : Except Error Expr :=
  let r := parseCore step fuel s0
  match scanNext step r.2 with
  | (some _, _) => .error ⟨"Unexpected token ", 0⟩
  | (none, s) =>
    match s.has_error with
    | some e => .error e
    | none => r.1

/-- The raw scanner as a pull iterator over its state, as
Tokens::new(..) hands it to the parser in evaluate. -/
def tokStep (st : ScanState) : Option (Except Error Token) × ScanState :=
  tokensNext st.1 st.2 0

/-- Parse a source string through the real scanner. Between two fuel
decrements the parser consumes at least one token per two decrements
(three in an argument list), and the token count is at most the
character count, so four fuel units per character strictly dominate
every run. -/
def parseStr (s : String) : Except Error Expr :=
  parse tokStep (s.data.length * 4 + 4) (s.data, 0)

/-- Byte length of a character list (Rust str::len over the spanned
text). -/
def byteLen (l : List Char) : Nat :=
  l.foldr (fun c n => c.utf8Size + n) 0

/-- Keep the characters covered by the first n bytes of the list;
none when the byte count does not land on a character boundary or runs
past the end, which in the source is an indexing panic. -/
def takeBytes : List Char → Nat → Option (List Char)
  | _, 0 => some []
  | [], _ + 1 => none
  | c :: rest, n + 1 =>
    if c.utf8Size ≤ n + 1 then (takeBytes rest (n + 1 - c.utf8Size)).map (c :: ·)
    else none

/-- Drop the first n bytes of the list; none on a boundary violation
or overrun, which in the source is an indexing panic. -/
def dropBytes : List Char → Nat → Option (List Char)
  | l, 0 => some l
  | [], _ + 1 => none
  | c :: rest, n + 1 =>
    if c.utf8Size ≤ n + 1 then dropBytes rest (n + 1 - c.utf8Size)
    else none

/-- The byte-range string indexing expression[pos.to_range()] of
lib.rs: the characters in the half-open byte range, or none where the
source panics. -/
def sliceBytes (src : List Char) (at_ len : Nat) : Option (List Char) :=
  (dropBytes src at_).bind (fun t => takeBytes t len)

/-- Digit run to a natural number. -/
def digitsToNat : List Char → Nat → Nat
  | [], acc => acc
  | c :: rest, acc => digitsToNat rest (acc * 10 + (c.toNat - '0'.toNat))

/-- Rust str::parse::<f32> restricted to the shapes the scanner can
hand it: an optional single dot in a run of ASCII digits, with at
least one digit. Sign, exponent and inf or nan forms never occur in a
scanned number span and are rejected here. The numeric value is exact
over the rationals. -/
def parseF32 (l : List Char) : Option ℚ :=
  let intPart := l.takeWhile (fun c => c != '.')
  match l.drop intPart.length with
  | [] =>
    if intPart ≠ [] ∧ intPart.all isAsciiDigit then some (digitsToNat intPart 0 : ℚ)
    else none
  | _ :: frac =>
    if frac.any (fun c => c == '.') then none
    else if intPart = [] ∧ frac = [] then none
    else if intPart.all isAsciiDigit ∧ frac.all isAsciiDigit then
      some ((digitsToNat intPart 0 : ℚ) + (digitsToNat frac 0 : ℚ) / (10 ^ frac.length : ℚ))
    else none

/-- The f32 value of std::f64::consts::PI as f32 in lib.rs: the
closest binary32 number to pi, an exact rational. -/
def piF32 : ℚ := 13176795 / 4194304

/-- The Binary arm of eval_expr in lib.rs: dispatch on the operator
glyphs in source arm order; the final panic arm is none. -/
def applyBin (op : Operator) (left right : ℚ) : Option ℚ :=
  if op.char1 = '+' then some (left + right)
  else if op.char1 = '-' then some (left - right)
  else if op.char1 = '*' then some (left * right)
  else if op.char1 = '/' then some (left / right)
  else if op.char1 = '>' ∧ op.char2 = some '=' then some (if left ≥ right then 1 else 0)
  else if op.char1 = '<' ∧ op.char2 = some '=' then some (if left ≤ right then 1 else 0)
  else if op.char1 = '>' then some (if left > right then 1 else 0)
  else if op.char1 = '<' then some (if left < right then 1 else 0)
  else if op.char1 = '=' then some (if left = right then 1 else 0)
  else none

/-- eval_expr from lib.rs. Rust panics (malformed numeric text, a
non-prefix operator in a unary node, a wrong arity for the if
function, an invalid slice) are the value none; every defined path
yields some value. Both operands of a binary node must evaluate; the
if function evaluates its condition and then only the selected
branch. -/
def eval_expr : Expr → List Char → Option ℚ
  | .number pos, src => (sliceBytes src pos.at_ pos.len).bind parseF32
  | .binary left right operator_ix, src =>
    match eval_expr left src, eval_expr right src with
    | some l, some r => applyBin (opFrom operator_ix) l r
    | _, _ => none
  | .unary e operator_ix, src =>
    if (opFrom operator_ix).char1 = '+' then eval_expr e src
    else if (opFrom operator_ix).char1 = '-' then (eval_expr e src).map (fun v => -v)
    else none
  | .var _, _ => some 1
  | .func name ps, src =>
    match sliceBytes src name.at_ name.len with
    | none => none
    | some t =>
      if t = "pi".data then some piF32
      else if t = "if".data then
        match ps with
        | [p0, p1, p2] =>
          match eval_expr p0 src with
          | none => none
          | some c => if c > 0 then eval_expr p1 src else eval_expr p2 src
        | _ => none
      else some 0

/-- evaluate from lib.rs: scan, parse, then evaluate; a parse
diagnostic is the error outcome, and .ok none marks an evaluation
panic of the source. -/
def evaluate (s : String) : Except Error (Option ℚ) :=
  match parseStr s with
  | .error e => .error e
  | .ok e => .ok (eval_expr e s.data)

/-- A pre-materialized token stream as a pull iterator, the shape the
parser unit tests of parser.rs feed into parse (a vector iterator of
Result items). -/
def listStep (l : List (Except Error Token)) :
    Option (Except Error Token) × List (Except Error Token) :=
  match l with
  | [] => (none, [])
  | x :: xs => (some x, xs)

/-! Helper lemmas about lists, bytes and the scanner loops. -/

theorem length_takeWhile_le (p : Char → Bool) :
    ∀ l : List Char, (l.takeWhile p).length ≤ l.length := by
  intro l
  induction l with
  | nil => simp
  | cons c rest ih =>
    by_cases h : p c
    · simp only [List.takeWhile_cons, h, if_true, List.length_cons]
      omega
    · simp [List.takeWhile_cons, h]

theorem take_length_takeWhile (p : Char → Bool) :
    ∀ l : List Char, l.take (l.takeWhile p).length = l.takeWhile p := by
  intro l
  induction l with
  | nil => rfl
  | cons c rest ih =>
    by_cases h : p c <;> simp [List.takeWhile_cons, h, ih]

theorem drop_length_takeWhile (p : Char → Bool) :
    ∀ l : List Char, l.drop (l.takeWhile p).length = l.dropWhile p := by
  intro l
  induction l with
  | nil => rfl
  | cons c rest ih =>
    by_cases h : p c <;> simp [List.takeWhile_cons, List.dropWhile_cons, h, ih]

theorem byteLen_nil : byteLen [] = 0 := rfl

theorem byteLen_cons (c : Char) (l : List Char) :
    byteLen (c :: l) = c.utf8Size + byteLen l := rfl

theorem byteLen_ascii (l : List Char) (h : ∀ c ∈ l, c.utf8Size = 1) :
    byteLen l = l.length := by
  induction l with
  | nil => rfl
  | cons c rest ih =>
    rw [byteLen_cons, h c (by simp), ih (fun c hc => h c (by simp [hc]))]
    simp [Nat.add_comm]

theorem dropBytes_zero (l : List Char) : dropBytes l 0 = some l := by
  cases l <;> rfl

theorem takeBytes_zero (l : List Char) : takeBytes l 0 = some [] := by
  cases l <;> rfl

theorem dropBytes_append (a b : List Char) : dropBytes (a ++ b) (byteLen a) = some b := by
  induction a with
  | nil => simpa [byteLen_nil] using dropBytes_zero b
  | cons c rest ih =>
    have hpos : 0 < c.utf8Size := Char.utf8Size_pos c
    obtain ⟨m, hm⟩ : ∃ m, c.utf8Size + byteLen rest = m + 1 :=
      ⟨c.utf8Size + byteLen rest - 1, by omega⟩
    rw [byteLen_cons, List.cons_append, hm]
    rw [show dropBytes (c :: (rest ++ b)) (m + 1) =
      if c.utf8Size ≤ m + 1 then dropBytes (rest ++ b) (m + 1 - c.utf8Size) else none from rfl]
    rw [if_pos (by omega), show m + 1 - c.utf8Size = byteLen rest from by omega]
    exact ih

theorem takeBytes_ascii (l : List Char) (n : Nat) (hn : n ≤ l.length)
    (h : ∀ c ∈ l.take n, c.utf8Size = 1) : takeBytes l n = some (l.take n) := by
  induction l generalizing n with
  | nil =>
    have h0 : n = 0 := by simpa using hn
    subst h0
    exact takeBytes_zero []
  | cons c rest ih =>
    match n with
    | 0 => exact takeBytes_zero (c :: rest)
    | n + 1 =>
      have hc : c.utf8Size = 1 := h c (by simp)
      rw [show takeBytes (c :: rest) (n + 1) =
        if c.utf8Size ≤ n + 1 then (takeBytes rest (n + 1 - c.utf8Size)).map (c :: ·)
        else none from rfl]
      rw [if_pos (by omega), hc]
      have : takeBytes rest (n + 1 - 1) = some (rest.take n) := by
        rw [show n + 1 - 1 = n from rfl]
        exact ih n (by simpa using hn) (fun x hx => h x (by simp [List.take_cons]; tauto))
      rw [this]
      simp [List.take_cons]

/-- The predicate of the number loop: ASCII digit or dot. -/
def numPred (c : Char) : Bool := isAsciiDigit c || c == '.'

/-- The predicate of the identifier loop: alphanumeric or
underscore. -/
def identPred (c : Char) : Bool := isAlphanumeric c || c == '_'

theorem numberLoop_eq (l : List Char) (bix len : Nat) :
    numberLoop l bix len = (len + (l.takeWhile numPred).length,
      (l.dropWhile numPred, bix + byteLen (l.takeWhile numPred))) := by
  induction l generalizing bix len with
  | nil => simp [numberLoop, byteLen_nil]
  | cons c rest ih =>
    by_cases h : numPred c
    · rw [show numberLoop (c :: rest) bix len =
        numberLoop rest (bix + c.utf8Size) (len + 1) from by
          simp only [numberLoop]
          rw [if_pos (by simpa [numPred] using h)]]
      rw [ih]
      simp [List.takeWhile_cons, List.dropWhile_cons, h, byteLen_cons]
      omega
    · rw [show numberLoop (c :: rest) bix len = (len, (c :: rest, bix)) from by
        simp only [numberLoop]
        rw [if_neg (by simpa [numPred] using h)]]
      simp [List.takeWhile_cons, List.dropWhile_cons, h, byteLen_nil]

theorem stringLoop_eq (l : List Char) (bix len : Nat) :
    stringLoop l bix len = (len + (l.takeWhile identPred).length,
      (l.dropWhile identPred, bix + byteLen (l.takeWhile identPred))) := by
  induction l generalizing bix len with
  | nil => simp [stringLoop, byteLen_nil]
  | cons c rest ih =>
    by_cases h : identPred c
    · rw [show stringLoop (c :: rest) bix len =
        stringLoop rest (bix + c.utf8Size) (len + 1) from by
          simp only [stringLoop]
          rw [if_pos (by simpa [identPred] using h)]]
      rw [ih]
      simp [List.takeWhile_cons, List.dropWhile_cons, h, byteLen_cons]
      omega
    · rw [show stringLoop (c :: rest) bix len = (len, (c :: rest, bix)) from by
        simp only [stringLoop]
        rw [if_neg (by simpa [identPred] using h)]]
      simp [List.takeWhile_cons, List.dropWhile_cons, h, byteLen_nil]

theorem tokensNext_ws_cons (c : Char) (rest : List Char) (bix cn : Nat)
    (hws : isAsciiWhitespace c = true) :
    tokensNext (c :: rest) bix cn = tokensNext rest (bix + c.utf8Size) (cn + 1) := by
  simp only [tokensNext, hws, if_true]

theorem tokensNext_error_nonws (c : Char) (rest : List Char) (bix cn : Nat) (e : Error)
    (st : ScanState) (hws : isAsciiWhitespace c = false)
    (h : tokensNext (c :: rest) bix cn = (some (.error e), st)) : e.at_ = cn + 1 := by
  simp only [tokensNext, hws, Bool.false_eq_true, if_false] at h
  repeat' split at h
  all_goals simp_all
  all_goals (obtain ⟨h1, -⟩ := h; subst h1; rfl)

theorem tokensNext_error_at (chars : List Char) :
    ∀ (bix cn : Nat) (e : Error) (st : ScanState),
    tokensNext chars bix cn = (some (.error e), st) →
    e.at_ = cn + (chars.takeWhile isAsciiWhitespace).length + 1 := by
  induction chars with
  | nil => intro bix cn e st h; simp [tokensNext] at h
  | cons c rest ih =>
    intro bix cn e st h
    by_cases hws : isAsciiWhitespace c = true
    · rw [tokensNext_ws_cons c rest bix cn hws] at h
      have := ih (bix + c.utf8Size) (cn + 1) e st h
      simp only [List.takeWhile_cons, hws, if_true, List.length_cons]
      omega
    · have hws' : isAsciiWhitespace c = false := by simpa using hws
      have := tokensNext_error_nonws c rest bix cn e st hws' h
      simp only [List.takeWhile_cons, hws', Bool.false_eq_true, if_false, List.length_nil]
      omega

theorem tokensNext_all_ws (chars : List Char) :
    ∀ (bix cn : Nat), (∀ c ∈ chars, isAsciiWhitespace c = true) →
    tokensNext chars bix cn = (none, ([], bix + byteLen chars)) := by
  induction chars with
  | nil => intro bix cn _; simp [tokensNext, byteLen_nil]
  | cons c rest ih =>
    intro bix cn hall
    rw [tokensNext_ws_cons c rest bix cn (hall c (by simp))]
    rw [ih (bix + c.utf8Size) (cn + 1) (fun x hx => hall x (by simp [hx]))]
    rw [byteLen_cons]
    simp [Nat.add_assoc]

theorem tokensNext_number_step (c : Char) (rest : List Char) (bix cn : Nat)
    (p : Position) (st : ScanState) (hws : isAsciiWhitespace c = false)
    (h : tokensNext (c :: rest) bix cn = (some (.ok (.number p)), st)) :
    p.at_ = bix ∧ p.len = 1 + (rest.takeWhile numPred).length ∧
    st.1 = rest.dropWhile numPred ∧ numPred c = true := by
  simp only [tokensNext, hws, Bool.false_eq_true, if_false,
    numberLoop_eq, numPred] at h
  repeat' split at h
  all_goals simp_all [numPred]
  obtain ⟨rfl, rfl⟩ := h
  exact ⟨rfl, rfl, rfl⟩

theorem tokensNext_str_step (c : Char) (rest : List Char) (bix cn : Nat)
    (p : Position) (st : ScanState) (hws : isAsciiWhitespace c = false)
    (h : tokensNext (c :: rest) bix cn = (some (.ok (.str p)), st)) :
    p.at_ = bix ∧ p.len = 1 + (rest.takeWhile identPred).length ∧
    st.1 = rest.dropWhile identPred := by
  simp only [tokensNext, hws, Bool.false_eq_true, if_false,
    stringLoop_eq, identPred] at h
  repeat' split at h
  all_goals simp_all [identPred]
  obtain ⟨rfl, rfl⟩ := h
  exact ⟨rfl, rfl, rfl⟩

theorem tokensNext_number_not_lone_dot (c : Char) (rest : List Char) (bix cn : Nat)
    (p : Position) (st : ScanState) (hws : isAsciiWhitespace c = false)
    (h : tokensNext (c :: rest) bix cn = (some (.ok (.number p)), st)) :
    ¬(c = '.' ∧ rest.takeWhile numPred = []) := by
  rintro ⟨rfl, htw⟩
  simp only [tokensNext, hws, Bool.false_eq_true, if_false, numberLoop_eq, numPred, htw] at h
  simp at h

theorem span_step (s : List Char) (ha : ∀ c ∈ s, c.utf8Size = 1) :
    ∀ (chars pre : List Char), s = pre ++ chars →
    ∀ (cn : Nat) (tok : Token) (st : ScanState) (p : Position),
    tokensNext chars pre.length cn = (some (.ok tok), st) →
    (tok = .number p ∨ tok = .str p) →
    sliceBytes s p.at_ p.len = some ((chars.dropWhile isAsciiWhitespace).take p.len) ∧
    (chars.dropWhile isAsciiWhitespace).drop p.len = st.1 := by
  intro chars
  induction chars with
  | nil =>
    intro pre hs cn tok st p h hp
    simp [tokensNext] at h
  | cons c rest ih =>
    intro pre hs cn tok st p h hp
    have hc1 : c.utf8Size = 1 := ha c (by simp [hs])
    by_cases hws : isAsciiWhitespace c = true
    · rw [tokensNext_ws_cons c rest pre.length cn hws, hc1] at h
      have hlen : pre.length + 1 = (pre ++ [c]).length := by simp
      rw [hlen] at h
      have := ih (pre ++ [c]) (by simp [hs]) (cn + 1) tok st p h hp
      simpa [List.dropWhile_cons, hws] using this
    · have hws' : isAsciiWhitespace c = false := by simpa using hws
      have hdw : (c :: rest).dropWhile isAsciiWhitespace = c :: rest := by
        simp [List.dropWhile_cons, hws']
      have hpre : byteLen pre = pre.length :=
        byteLen_ascii pre (fun x hx => ha x (by simp [hs, hx]))
      have hdrop : dropBytes s pre.length = some (c :: rest) := by
        rw [hs, ← hpre]
        exact dropBytes_append pre (c :: rest)
      have key : ∀ (k : Nat), p.at_ = pre.length → p.len = 1 + k → k ≤ rest.length →
          sliceBytes s p.at_ p.len = some ((c :: rest).take p.len) := by
        intro k hat hlen' hk
        have hbound : p.len ≤ (c :: rest).length := by simp [hlen']; omega
        have htake : takeBytes (c :: rest) p.len = some ((c :: rest).take p.len) := by
          refine takeBytes_ascii (c :: rest) p.len hbound (fun x hx => ha x ?_)
          have hx2 := List.mem_cons.mp (List.mem_of_mem_take hx)
          simp [hs]
          tauto
        rw [hat, sliceBytes, hdrop]
        simpa using htake
      rcases hp with rfl | rfl
      · obtain ⟨hat, hlen', hst, -⟩ :=
          tokensNext_number_step c rest pre.length cn p st hws' h
        refine ⟨by rw [hdw]; exact key _ hat hlen' (length_takeWhile_le numPred rest), ?_⟩
        rw [hdw, hlen', hst]
        rw [show (1 + (rest.takeWhile numPred).length) = (rest.takeWhile numPred).length + 1
          from by omega]
        rw [List.drop_succ_cons]
        exact drop_length_takeWhile numPred rest
      · obtain ⟨hat, hlen', hst⟩ :=
          tokensNext_str_step c rest pre.length cn p st hws' h
        refine ⟨by rw [hdw]; exact key _ hat hlen' (length_takeWhile_le identPred rest), ?_⟩
        rw [hdw, hlen', hst]
        rw [show (1 + (rest.takeWhile identPred).length) = (rest.takeWhile identPred).length + 1
          from by omega]
        rw [List.drop_succ_cons]
        exact drop_length_takeWhile identPred rest

theorem dropWhile_head_not (p : Char → Bool) (l : List Char) :
    ∀ d frac, l.dropWhile p = d :: frac → p d = false := by
  induction l with
  | nil => intro d frac h; simp at h
  | cons c cs ih =>
    intro d frac h
    by_cases hc : p c = true
    · rw [List.dropWhile_cons_of_pos hc] at h
      exact ih d frac h
    · rw [List.dropWhile_cons_of_neg hc] at h
      obtain ⟨rfl, -⟩ := List.cons.injEq .. ▸ h
      simpa using hc

theorem number_token_text (chars : List Char) :
    ∀ (bix cn : Nat) (p : Position) (st : ScanState),
    tokensNext chars bix cn = (some (.ok (.number p)), st) →
    (chars.dropWhile isAsciiWhitespace).take p.len ≠ [] ∧
    (∀ x ∈ (chars.dropWhile isAsciiWhitespace).take p.len, numPred x = true) ∧
    (chars.dropWhile isAsciiWhitespace).take p.len ≠ ['.'] := by
  induction chars with
  | nil => intro bix cn p st h; simp [tokensNext] at h
  | cons c rest ih =>
    intro bix cn p st h
    by_cases hws : isAsciiWhitespace c = true
    · rw [tokensNext_ws_cons c rest bix cn hws] at h
      have := ih (bix + c.utf8Size) (cn + 1) p st h
      simpa [List.dropWhile_cons, hws] using this
    · have hws' : isAsciiWhitespace c = false := by simpa using hws
      have hdw : (c :: rest).dropWhile isAsciiWhitespace = c :: rest := by
        simp [List.dropWhile_cons, hws']
      obtain ⟨-, hlen', -, hnp⟩ := tokensNext_number_step c rest bix cn p st hws' h
      have hnd := tokensNext_number_not_lone_dot c rest bix cn p st hws' h
      have htk : (c :: rest).take p.len = c :: rest.takeWhile numPred := by
        rw [hlen']
        rw [show (1 + (rest.takeWhile numPred).length) = (rest.takeWhile numPred).length + 1
          from by omega]
        rw [List.take_succ_cons, take_length_takeWhile]
      rw [hdw, htk]
      refine ⟨by simp, ?_, ?_⟩
      · intro x hx
        rcases List.mem_cons.mp hx with rfl | hx2
        · exact hnp
        · exact List.mem_takeWhile_imp hx2
      · intro heq
        obtain ⟨rfl, htw⟩ := List.cons.injEq .. ▸ heq
        exact hnd ⟨rfl, htw⟩

theorem parseF32_total (t : List Char) (hne : t ≠ [])
    (hall : ∀ x ∈ t, numPred x = true) (hnd : t ≠ ['.'])
    (hcount : t.count '.' ≤ 1) : (parseF32 t).isSome := by
  have hdigit : ∀ x ∈ t, x ≠ '.' → isAsciiDigit x = true := by
    intro x hx hxd
    have := hall x hx
    simp [numPred] at this
    rcases this with hd | hd
    · exact hd
    · exact absurd hd hxd
  by_cases hzero : t.count '.' = 0
  · have hnotin : '.' ∉ t := List.count_eq_zero.mp hzero
    have hself : t.takeWhile (fun c => c != '.') = t := by
      refine List.takeWhile_eq_self_iff.mpr (fun x hx => ?_)
      simp only [bne_iff_ne, ne_eq, decide_eq_true_eq]
      intro he
      exact hnotin (he ▸ hx)
    rw [parseF32]
    simp only [hself, List.drop_length t]
    rw [if_pos ?_]
    · simp
    · refine ⟨hne, ?_⟩
      simp only [List.all_eq_true]
      intro x hx
      refine hdigit x hx (fun he => hnotin (he ▸ hx))
  · -- exactly one dot
    set intPart := t.takeWhile (fun c => c != '.') with hint
    set rest' := t.dropWhile (fun c => c != '.') with hrest
    have hsplit : intPart ++ rest' = t := List.takeWhile_append_dropWhile _ _
    have hintnd : '.' ∉ intPart := by
      intro hx
      have := List.mem_takeWhile_imp hx
      simp at this
    have hintcount : intPart.count '.' = 0 := List.count_eq_zero.mpr hintnd
    have hrne : rest' ≠ [] := by
      intro hre
      apply hzero
      rw [← hsplit, hre, List.append_nil]
      exact hintcount
    obtain ⟨d, frac, hdf⟩ := List.exists_cons_of_ne_nil hrne
    have hd : d = '.' := by
      have := dropWhile_head_not (fun c => c != '.') t d frac (hrest ▸ hdf)
      simpa using this
    subst hd
    have hfrac_count : frac.count '.' = 0 := by
      have : t.count '.' = intPart.count '.' + rest'.count '.' := by
        rw [← hsplit]
        exact List.count_append ..
      rw [hdf] at this
      simp [hintcount, List.count_cons] at this
      omega
    have hfracnd : '.' ∉ frac := List.count_eq_zero.mp hfrac_count
    rw [parseF32]
    simp only [← hint]
    have hdrop : t.drop intPart.length = '.' :: frac := by
      rw [hint, drop_length_takeWhile, ← hrest, hdf]
    rw [hdrop]
    simp only []
    rw [if_neg ?_, if_neg ?_, if_pos ?_]
    · simp
    · constructor
      · simp only [List.all_eq_true]
        intro x hx
        refine hdigit x (hsplit ▸ List.mem_append_left rest' hx) (fun he => hintnd (he ▸ hx))
      · simp only [List.all_eq_true]
        intro x hx
        have hxt : x ∈ t := by
          rw [← hsplit, hdf]
          exact List.mem_append_right _ (List.mem_cons_of_mem _ hx)
        refine hdigit x hxt (fun he => hfracnd (he ▸ hx))
    · rintro ⟨h1, h2⟩
      apply hnd
      rw [← hsplit, hdf, h1, h2]
      rfl
    · simp only [List.any_eq_true]
      rintro ⟨x, hx, hxd⟩
      simp at hxd
      exact hfracnd (hxd ▸ hx)

theorem some_ite_one_zero (P : Prop) [Decidable P] (v : ℚ)
    (h : some (if P then (1 : ℚ) else 0) = some v) : v = 1 ∨ v = 0 := by
  split_ifs at h
  · exact Or.inl (Option.some.injEq .. ▸ h).symm
  · exact Or.inr (Option.some.injEq .. ▸ h).symm

theorem applyBin_cmp (op : Operator) (a b v : ℚ) (h : applyBin op a b = some v)
    (hcmp : op.char1 = '<' ∨ op.char1 = '>' ∨ op.char1 = '=') : v = 1 ∨ v = 0 := by
  unfold applyBin at h
  rcases hcmp with hc | hc | hc
  all_goals rw [hc] at h
  · rw [if_neg (by decide), if_neg (by decide), if_neg (by decide), if_neg (by decide),
      if_neg (fun hj => absurd hj.1 (by decide))] at h
    by_cases hc2 : op.char2 = some '='
    · rw [if_pos ⟨rfl, hc2⟩] at h
      exact some_ite_one_zero _ v h
    · rw [if_neg (fun hj => hc2 hj.2), if_neg (by decide), if_pos rfl] at h
      exact some_ite_one_zero _ v h
  · rw [if_neg (by decide), if_neg (by decide), if_neg (by decide), if_neg (by decide)] at h
    by_cases hc2 : op.char2 = some '='
    · rw [if_pos ⟨rfl, hc2⟩] at h
      exact some_ite_one_zero _ v h
    · rw [if_neg (fun hj => hc2 hj.2), if_neg (fun hj => absurd hj.1 (by decide)),
        if_pos rfl] at h
      exact some_ite_one_zero _ v h
  · rw [if_neg (by decide), if_neg (by decide), if_neg (by decide), if_neg (by decide),
      if_neg (fun hj => absurd hj.1 (by decide)), if_neg (fun hj => absurd hj.1 (by decide)),
      if_neg (by decide), if_neg (by decide), if_pos rfl] at h
    exact some_ite_one_zero _ v h

/-- C2: the parser consumes an infix operator only when its precedence
strictly exceeds the current minimum (an operator of precedence at
most the minimum leaves the loop with the accumulated left expression
and the stream exactly as the peek left it), the right-hand side is
parsed at that operator precedence (visible in the exprLoop
definition), and consequently equal precedence binds left
associatively and higher precedence binds tighter: the three quoted
evaluations hold. -/
theorem c2_strict_precedence_climbing :
    (∀ (σ : Type) (step : σ → Option (Except Error Token) × σ) (f : Nat)
      (left : Except Error Expr) (prec : Nat) (s : Adapted σ) (a ix : Nat) (s' : Adapted σ),
      scanPeek step s = (some (.operator a ix), s') →
      (opFrom ix).precedence ≤ prec →
      exprLoop step (f + 1) left prec s = (left, s')) ∧
    evaluate "3 * 2 + 1" = .ok (some 7) ∧
    evaluate "1 + 3 * 2" = .ok (some 7) ∧
    evaluate "12/2/3" = .ok (some 2) := by
  refine ⟨?_, ?_, ?_, ?_⟩
  · intro σ step f left prec s a ix s' hpk hle
    simp only [exprLoop, hpk]
    rw [if_neg (by omega)]
  · have h : evaluate "3 * 2 + 1" = .ok (some ((3 : ℚ) * 2 + 1)) := rfl
    rw [h]
    norm_num
  · have h : evaluate "1 + 3 * 2" = .ok (some ((1 : ℚ) + 3 * 2)) := rfl
    rw [h]
    norm_num
  · have h : evaluate "12/2/3" = .ok (some ((12 : ℚ) / 2 / 3)) := rfl
    rw [h]
    norm_num

set_option maxHeartbeats 1000000 in
/-- C3: a Binary node evaluates only when both operands evaluate (a
panic in either operand is a panic of the whole node, with no short
circuit), the comparison operators yield exactly one or exactly zero,
and the two quoted evaluations hold. -/
theorem c3_binary_both_operands_and_comparisons :
    (∀ (l r : Expr) (ix : Nat) (src : List Char), eval_expr l src = none →
      eval_expr (.binary l r ix) src = none) ∧
    (∀ (l r : Expr) (ix : Nat) (src : List Char), eval_expr r src = none →
      eval_expr (.binary l r ix) src = none) ∧
    (∀ (l r : Expr) (ix : Nat) (src : List Char) (v : ℚ),
      eval_expr (.binary l r ix) src = some v →
      ((opFrom ix).char1 = '<' ∨ (opFrom ix).char1 = '>' ∨ (opFrom ix).char1 = '=') →
      v = 1 ∨ v = 0) ∧
    evaluate "1 > 0" = .ok (some 1) ∧ evaluate "1 <= 0" = .ok (some 0) := by
  refine ⟨?_, ?_, ?_, rfl, rfl⟩
  · intro l r ix src h
    simp [eval_expr, h]
  · intro l r ix src h
    cases hl : eval_expr l src <;> simp [eval_expr, hl, h]
  · intro l r ix src v h hcmp
    cases hl : eval_expr l src with
    | none => simp [eval_expr, hl] at h
    | some a =>
      cases hr : eval_expr r src with
      | none => simp [eval_expr, hl, hr] at h
      | some b =>
        simp only [eval_expr, hl, hr] at h
        exact applyBin_cmp (opFrom ix) a b v h hcmp

set_option maxHeartbeats 1000000 in
/-- C4: a Call whose name text is if demands exactly three arguments
(any other arity is the fatal outcome none, not a Diagnostic); the
condition is evaluated, strict positivity selects argument one and
otherwise argument two, and only the selected branch matters (the
result equals the evaluation of the selected argument whatever the
other argument holds); the two quoted evaluations hold. -/
theorem c4_if_call_arity_and_branching :
    (∀ (name : Position) (ps : List Expr) (src : List Char),
      sliceBytes src name.at_ name.len = some ("if".data) → ps.length ≠ 3 →
      eval_expr (.func name ps) src = none) ∧
    (∀ (name : Position) (p0 p1 p2 : Expr) (src : List Char) (c : ℚ),
      sliceBytes src name.at_ name.len = some ("if".data) →
      eval_expr p0 src = some c → 0 < c →
      eval_expr (.func name [p0, p1, p2]) src = eval_expr p1 src) ∧
    (∀ (name : Position) (p0 p1 p2 : Expr) (src : List Char) (c : ℚ),
      sliceBytes src name.at_ name.len = some ("if".data) →
      eval_expr p0 src = some c → ¬(0 < c) →
      eval_expr (.func name [p0, p1, p2]) src = eval_expr p2 src) ∧
    evaluate "if(1 > 0, 10, -1)" = .ok (some 10) ∧
    evaluate "if(1 < 0, 10, -1)" = .ok (some (-1)) := by
  have hpi : ¬("if".data = "pi".data) := by decide
  refine ⟨?_, ?_, ?_, rfl, rfl⟩
  · intro name ps src hsl hlen
    rcases ps with _ | ⟨a, _ | ⟨b, _ | ⟨c, _ | rest⟩⟩⟩
    · simp [eval_expr, hsl, hpi]
    · simp [eval_expr, hsl, hpi]
    · simp [eval_expr, hsl, hpi]
    · simp at hlen
    · simp [eval_expr, hsl, hpi]
  · intro name p0 p1 p2 src c hsl h0 hpos
    simp [eval_expr, hsl, hpi, h0, hpos]
  · intro name p0 p1 p2 src c hsl h0 hpos
    simp [eval_expr, hsl, hpi, h0, hpos]

set_option maxHeartbeats 1000000 in
/-- C7: in singular position any operator token is accepted as a
unary prefix (the singular procedure wraps a recursively parsed
expr at minimum precedence zero in a Unary node for every operator
index, with no validAsPrefix restriction), unary plus evaluates to the
operand value and unary minus to its negation, and the quoted
evaluations hold, including the parse of a star prefix. -/
theorem c7_unary_any_operator :
    (∀ (σ : Type) (step : σ → Option (Except Error Token) × σ) (f : Nat) (s : Adapted σ)
      (a ix : Nat) (s' : Adapted σ),
      scanPeek step s = (some (.operator a ix), s') →
      singular step (f + 1) s =
        ((expr step f (scanNext step s').2 0).1.map (fun e => Expr.unary e ix),
         (expr step f (scanNext step s').2 0).2)) ∧
    (∀ (e : Expr) (src : List Char) (ix : Nat), (opFrom ix).char1 = '+' →
      eval_expr (.unary e ix) src = eval_expr e src) ∧
    (∀ (e : Expr) (src : List Char) (ix : Nat), (opFrom ix).char1 = '-' →
      eval_expr (.unary e ix) src = (eval_expr e src).map (fun v => -v)) ∧
    parseStr "*5" = .ok (.unary (.number ⟨1, 1⟩) 1) ∧
    evaluate "-1" = .ok (some (-1)) ∧ evaluate "--2" = .ok (some 2) := by
  refine ⟨?_, ?_, ?_, rfl, rfl, rfl⟩
  · intro σ step f s a ix s' hpk
    simp only [singular, hpk]
    cases hr : (expr step f (scanNext step s').2 0).1 <;> simp [hr, Except.map]
  · intro e src ix h
    simp [eval_expr, h]
  · intro e src ix h
    simp only [eval_expr, h]
    simp

/-- C8: whenever the single character operator lookup returns an
index, the table entry there has the looked up glyph as its first
glyph, no second glyph, and no earlier entry shares that first glyph;
in particular the less than and greater than lookups return the
single character entries four and five, not the two character
entries. -/
theorem c8_single_lookup_first_match :
    (∀ (c : Char) (ix : Nat), is_operator c = some ix →
      (opFrom ix).char1 = c ∧ (opFrom ix).char2 = none ∧
      ∀ j, j < ix → (opFrom j).char1 ≠ c) ∧
    is_operator '<' = some 4 ∧ is_operator '>' = some 5 := by
  refine ⟨?_, rfl, rfl⟩
  intro c ix h
  simp only [is_operator, findIndex, OPERATORS] at h
  split_ifs at h with h1 h2 h3 h4 h5 h6 h7
  · rw [beq_iff_eq] at h1
    subst h1
    simp at h
    subst h
    decide
  · rw [beq_iff_eq] at h2
    subst h2
    simp at h
    subst h
    decide
  · rw [beq_iff_eq] at h3
    subst h3
    simp at h
    subst h
    decide
  · rw [beq_iff_eq] at h4
    subst h4
    simp at h
    subst h
    decide
  · rw [beq_iff_eq] at h5
    subst h5
    simp at h
    subst h
    decide
  · rw [beq_iff_eq] at h6
    subst h6
    simp at h
    subst h
    decide
  · rw [beq_iff_eq] at h7
    subst h7
    simp at h
    subst h
    decide
  · simp at h

theorem parse_ws_only (chars : List Char) (hws : ∀ c ∈ chars, isAsciiWhitespace c = true)
    (f : Nat) :
    parse tokStep (f + 2) (chars, 0) = .error ⟨"Expected expression but reached the end", 0⟩ := by
  have htok : tokStep (chars, 0) = (none, ([], byteLen chars)) := by
    simpa [tokStep] using tokensNext_all_ws chars 0 0 hws
  simp [parse, parseCore, expr, singular, exprLoop, scanPeek, scanNext, htok]

/-- C10: on the empty string and on every input consisting only of
ASCII whitespace, evaluate returns the end-of-input Diagnostic with
the quoted message, not a number and not a fatal outcome. -/
theorem c10_blank_input (s : String) (hws : ∀ c ∈ s.data, isAsciiWhitespace c = true) :
    evaluate s = .error ⟨"Expected expression but reached the end", 0⟩ := by
  have h : parseStr s = .error ⟨"Expected expression but reached the end", 0⟩ := by
    rw [parseStr, show s.data.length * 4 + 4 = (s.data.length * 4 + 2) + 2 from rfl]
    exact parse_ws_only s.data hws (s.data.length * 4 + 2)
  simp [evaluate, h]

/-- C1 counterexample: on the source with an opening parenthesis, a
number, a lone dot and a trailing identifier, the scanner yields its
lone dot diagnostic while the parser is pulling tokens, yet parse (and
hence evaluate) returns the structural Unexpected token diagnostic
instead of the scanner diagnostic: the unconsumed-token check runs
before the recorded-error check and reaches the token behind the
error item, so the claimed precedence fails. -/
theorem c1_counterexample_scan_error_loses :
    tokenize "(1 . x" = [.ok (.lparen 0), .ok (.number ⟨1, 1⟩),
      .error ⟨"Unexpected token . at position 2", 2⟩, .ok (.str ⟨5, 1⟩)] ∧
    evaluate "(1 . x" = .error ⟨"Unexpected token ", 0⟩ ∧
    Error.mk "Unexpected token " 0 ≠ Error.mk "Unexpected token . at position 2" 2 :=
  ⟨rfl, rfl, by decide⟩

/-- C1 amended: a scanner diagnostic recorded while the parser pulled
tokens is returned by parse, overriding any parse result (successful
or failed), provided the unconsumed-token check that runs first finds
no further token; the quoted concrete evaluation shows the scanner
diagnostic surfacing over a structurally complete parse. -/
theorem c1_amended_scan_error_priority :
    (∀ (σ : Type) (step : σ → Option (Except Error Token) × σ) (fuel : Nat) (s0 : σ)
      (e : Error),
      (scanNext step (parseCore step fuel s0).2).1 = none →
      (scanNext step (parseCore step fuel s0).2).2.has_error = some e →
      parse step fuel s0 = .error e) ∧
    evaluate "1 ." = .error ⟨"Unexpected token . at position 2", 2⟩ := by
  refine ⟨?_, rfl⟩
  intro σ step fuel s0 e h1 h2
  simp only [parse]
  rcases hsn : scanNext step (parseCore step fuel s0).2 with ⟨t, s2⟩
  rw [hsn] at h1 h2
  simp only at h1 h2
  subst h1
  simp [h2]

/-- C5 counterexample: in the source consisting of a digit, a space
and a dot, the offending dot is the third character of the input
(position three when counting every scanned character from the start,
zero-based index two), but the scanner diagnostic reports position
two, because the character counter restarts on every scanner call. -/
theorem c5_counterexample_position_restarts :
    tokenize "1 ." = [.ok (.number ⟨0, 1⟩),
      .error ⟨"Unexpected token . at position 2", 2⟩] ∧
    "1 .".data[2]? = some '.' ∧ (2 : Nat) ≠ 2 + 1 :=
  ⟨rfl, rfl, by decide⟩

/-- C5 amended: every scanner diagnostic reports the one-based
position of the offending character among the characters scanned by
the current scanner call, that is, counted from the character after
the previously produced token (including any whitespace the call
skipped), the counter starting afresh on every call rather than at
the start of the input. The size hypothesis keeps the u32 counter of
the source in range. -/
theorem c5_amended_position_within_call (chars : List Char) (bix cn : Nat) (e : Error)
    (st : ScanState) (_hsize : cn + chars.length < 4294967296)
    (h : tokensNext chars bix cn = (some (.error e), st)) :
    e.at_ = cn + (chars.takeWhile isAsciiWhitespace).length + 1 :=
  tokensNext_error_at chars bix cn e st h

/-- C6 counterexample: scanning the single non-ASCII letter e-acute
produces an identifier token whose span has byte length one, but the
character occupies two bytes, so the span does not select the consumed
text: slicing the source at the span fails (the source program would
panic on this slice), because the scanner counts characters into the
span length while spans are byte ranges. -/
theorem c6_counterexample_non_ascii :
    tokensNext "é".data 0 0 = (some (.ok (.str ⟨0, 1⟩)), ([], 2)) ∧
    sliceBytes "é".data 0 1 = none :=
  ⟨rfl, rfl⟩

/-- C6 amended: over sources whose characters are all one byte
(ASCII), every Number or Identifier token produced by a scanner step
taken at byte index equal to the length of the already consumed
prefix has a span that selects exactly the literal text consumed: the
slice succeeds, returns the first span-length characters following
the skipped whitespace, and the scanner resumes immediately after
them. The length hypothesis keeps the u16 span length of the source
in range. -/
theorem c6_amended_span_roundtrip_ascii (s pre chars : List Char)
    (ha : ∀ c ∈ s, c.utf8Size = 1) (_hsize : s.length ≤ 65535) (hs : s = pre ++ chars)
    (cn : Nat) (tok : Token) (st : ScanState) (p : Position)
    (h : tokensNext chars pre.length cn = (some (.ok tok), st))
    (hp : tok = .number p ∨ tok = .str p) :
    sliceBytes s p.at_ p.len = some ((chars.dropWhile isAsciiWhitespace).take p.len) ∧
    (chars.dropWhile isAsciiWhitespace).drop p.len = st.1 :=
  span_step s ha chars pre hs cn tok st p h hp

/-- C9: for every Number token produced by a scanner step over an
ASCII source, if the substring selected by its span contains at most
one dot then the evaluator float parse of that exact substring
succeeds, so the fatal malformed-number outcome is unreachable except
in the multi-dot case. -/
theorem c9_number_span_parses (s pre chars : List Char)
    (ha : ∀ c ∈ s, c.utf8Size = 1) (hs : s = pre ++ chars)
    (cn : Nat) (p : Position) (st : ScanState) (t : List Char)
    (h : tokensNext chars pre.length cn = (some (.ok (.number p)), st))
    (hsl : sliceBytes s p.at_ p.len = some t)
    (hc : t.count '.' ≤ 1) : (parseF32 t).isSome := by
  obtain ⟨hsl2, -⟩ := span_step s ha chars pre hs cn (.number p) st p h (Or.inl rfl)
  rw [hsl] at hsl2
  obtain rfl : t = (chars.dropWhile isAsciiWhitespace).take p.len := by
    simpa using hsl2
  obtain ⟨hne, hall, hnd⟩ := number_token_text chars pre.length cn p st h
  exact parseF32_total _ hne hall hnd hc

theorem c2_witness :
    exprLoop listStep (0 + 1) (.ok (.number ⟨0, 1⟩)) 60 ⟨[.ok (.operator 0 2)], none, none⟩ =
      (.ok (.number ⟨0, 1⟩), ⟨[], none, some (some (.operator 0 2))⟩) :=
  c2_strict_precedence_climbing.1 (List (Except Error Token)) listStep 0
    (.ok (.number ⟨0, 1⟩)) 60 ⟨[.ok (.operator 0 2)], none, none⟩ 0 2
    ⟨[], none, some (some (.operator 0 2))⟩ rfl (by decide)

theorem c3_witness :
    eval_expr (.binary (.number ⟨0, 1⟩) (.number ⟨0, 1⟩) 0) [] = none ∧
    eval_expr (.binary (.number ⟨0, 1⟩) (.number ⟨0, 2⟩) 1) [] = none ∧
    ((0 : ℚ) = 1 ∨ (0 : ℚ) = 0) :=
  ⟨c3_binary_both_operands_and_comparisons.1 (.number ⟨0, 1⟩) (.number ⟨0, 1⟩) 0 [] rfl,
   c3_binary_both_operands_and_comparisons.2.1 (.number ⟨0, 1⟩) (.number ⟨0, 2⟩) 1 [] rfl,
   c3_binary_both_operands_and_comparisons.2.2.1 (.number ⟨0, 1⟩) (.number ⟨0, 1⟩) 5
     "1".data 0 rfl (Or.inr (Or.inl rfl))⟩

theorem c4_witness :
    eval_expr (.func ⟨0, 2⟩ []) "if".data = none ∧
    eval_expr (.func ⟨0, 2⟩ [.var ⟨0, 0⟩, .var ⟨0, 0⟩, .number ⟨0, 2⟩]) "if".data =
      eval_expr (.var ⟨0, 0⟩) "if".data :=
  ⟨c4_if_call_arity_and_branching.1 ⟨0, 2⟩ [] "if".data rfl (by decide),
   c4_if_call_arity_and_branching.2.1 ⟨0, 2⟩ (.var ⟨0, 0⟩) (.var ⟨0, 0⟩) (.number ⟨0, 2⟩)
     "if".data 1 rfl rfl (by norm_num)⟩

theorem c7_witness :
    singular listStep (2 + 1) ⟨[.ok (.operator 0 1), .ok (.number ⟨1, 1⟩)], none, none⟩ =
      ((expr listStep 2
          (scanNext listStep
            ⟨[.ok (.number ⟨1, 1⟩)], none, some (some (.operator 0 1))⟩).2 0).1.map
        (fun e => Expr.unary e 1),
       (expr listStep 2
          (scanNext listStep
            ⟨[.ok (.number ⟨1, 1⟩)], none, some (some (.operator 0 1))⟩).2 0).2) ∧
    eval_expr (.unary (.var ⟨0, 0⟩) 2) [] = eval_expr (.var ⟨0, 0⟩) [] ∧
    eval_expr (.unary (.var ⟨0, 0⟩) 3) [] = (eval_expr (.var ⟨0, 0⟩) []).map (fun v => -v) :=
  ⟨c7_unary_any_operator.1 (List (Except Error Token)) listStep 2
     ⟨[.ok (.operator 0 1), .ok (.number ⟨1, 1⟩)], none, none⟩ 0 1
     ⟨[.ok (.number ⟨1, 1⟩)], none, some (some (.operator 0 1))⟩ rfl,
   c7_unary_any_operator.2.1 (.var ⟨0, 0⟩) [] 2 rfl,
   c7_unary_any_operator.2.2.1 (.var ⟨0, 0⟩) [] 3 rfl⟩

theorem c8_witness :
    (opFrom 4).char1 = '<' ∧ (opFrom 4).char2 = none ∧
    ∀ j, j < 4 → (opFrom j).char1 ≠ '<' :=
  c8_single_lookup_first_match.1 '<' 4 rfl

theorem c10_witness :
    evaluate " " = .error ⟨"Expected expression but reached the end", 0⟩ :=
  c10_blank_input " " (by decide)

theorem c1_witness :
    parse listStep 2 [.error ⟨"scan fail", 7⟩] = .error ⟨"scan fail", 7⟩ :=
  c1_amended_scan_error_priority.1 (List (Except Error Token)) listStep 2
    [.error ⟨"scan fail", 7⟩] ⟨"scan fail", 7⟩ rfl rfl

theorem c5_witness :
    (Error.mk "Unexpected token . at position 2" 2).at_ =
      0 + ((" .".data).takeWhile isAsciiWhitespace).length + 1 :=
  c5_amended_position_within_call " .".data 0 0 ⟨"Unexpected token . at position 2", 2⟩
    ([], 2) (by decide) rfl

theorem c6_witness :
    sliceBytes "ab".data 0 2 =
      some ((("ab".data).dropWhile isAsciiWhitespace).take 2) ∧
    (("ab".data).dropWhile isAsciiWhitespace).drop 2 = [] :=
  c6_amended_span_roundtrip_ascii "ab".data [] "ab".data (by decide) (by decide) rfl
    0 (.str ⟨0, 2⟩) ([], 2) ⟨0, 2⟩ rfl (Or.inr rfl)

theorem c9_witness : (parseF32 "12.5".data).isSome :=
  c9_number_span_parses "12.5x".data [] "12.5x".data (by decide) rfl 0 ⟨0, 4⟩
    (['x'], 4) "12.5".data rfl rfl (by decide)
